import Mathlib

/-!
Verification development for the time-boxed concurrent read benchmark of
src/benchmark.py.  The interesting core consists of the worker loop
`benchmark_worker` (lines 104-119) and the runner `benchmark` (lines 121-154).

Modelling choices (shallow embedding):

* Paths are an abstract type `P`; whether a read of a path succeeds is an
  abstract predicate `readOk : P → Bool` (line 113-114, `p.open('rb')` /
  `f.read()` which raises on a missing file, permission error or I/O error),
  and how long the read takes is `readTime : P → Nat` (wall-clock time is
  modelled by natural numbers on an abstract monotone clock, like
  `time.perf_counter()`).

* The shared `path_queue` (a `multiprocessing.Queue`, FIFO with exclusive
  single consumption of each item) is a list of tokens, `some p` for a path
  and `none` for the stop sentinel that the runner enqueues once per worker
  (lines 141-142).  The runner unconditionally enqueues all paths followed by
  the sentinels before joining (lines 139-144), so the model starts from the
  fully enqueued queue; consumption order is the FIFO order of the list.

* Concurrency is modelled by a small-step transition system: a `RunState`
  holds the remaining queue and the list of per-worker states, and a schedule
  (a list of worker indices) picks which worker performs its next loop
  iteration.  Theorems quantify over all schedules, covering every
  interleaving of the worker processes.

* Each worker keeps a private clock that starts at its start time and
  advances by `readTime p` for each file it reads; this is the worker-visible
  part of `time.perf_counter()` (a lower bound on real elapsed time).  A
  worker records each successful read as an event `(t, p)` where `t` is the
  clock value sampled at the top of the loop iteration that dequeued `p`.
-/

namespace DatasetFsBenchmark

/-- A token travelling on the shared work queue of benchmark.py: `some p` is a
path to read, `none` is the stop sentinel (line 111 checks `if p is None`,
line 142 enqueues one `None` per worker). -/
abbrev Token (P : Type) := Option P

/-- Status of one worker process.  `running` is the worker inside its
`while True` loop; `doneDeadline` is a worker that broke out at line 109
because the sampled clock exceeded `exit_time`; `doneStop` broke out at
line 112 after dequeuing the stop sentinel; `failed p` is a worker whose read
of `p` raised (line 113-114) and that died without publishing a result. -/
inductive WStatus (P : Type) where
  | running
  | doneDeadline
  | doneStop
  | failed (p : P)
  deriving DecidableEq

/-- State of one worker process of benchmark.py.  `completed` is the local
`completed_count` (line 105, 115), `clock` the current value of the worker
clock, `start` the clock value when the worker started, `events` the list of
successful reads `(clock sampled at line 107, path)` in order. -/
structure Worker (P : Type) where
  status : WStatus P
  completed : Nat
  clock : Nat
  start : Nat
  events : List (Nat × P)
  deriving DecidableEq

/-- Global state of one benchmark invocation: the remaining contents of the
shared `path_queue` and the per-worker states. -/
structure RunState (P : Type) where
  queue : List (Token P)
  workers : List (Worker P)
  deriving DecidableEq

variable {P : Type}

def isRunning (w : Worker P) : Bool :=
  match w.status with
  | .running => true
  | _ => false

def isDoneStop (w : Worker P) : Bool :=
  match w.status with
  | .doneStop => true
  | _ => false

def isDoneDeadline (w : Worker P) : Bool :=
  match w.status with
  | .doneDeadline => true
  | _ => false

def isFailed (w : Worker P) : Bool :=
  match w.status with
  | .failed _ => true
  | _ => false

/-- One iteration of the `while True` loop of `benchmark_worker`
(benchmark.py lines 106-115), acting on the worker and the shared queue:
sample the clock (line 107); if it exceeds `exit_time`, break (lines
108-109); otherwise dequeue the next token (line 110; if the queue is empty
the call blocks, modelled as no transition); a `None` token breaks the loop
(lines 111-112); a path token is read in full (lines 113-114) and on success
`completed_count` is incremented (line 115), while a raised I/O error kills
the worker.  Workers that are not running take no further steps. -/
def benchmark_worker_step (readOk : P → Bool) (readTime : P → Nat) (exit_time : Nat)
    (w : Worker P) (queue : List (Token P)) : Worker P × List (Token P) :=
  match w.status with
  | .running =>
    if exit_time < w.clock then
      ({ w with status := .doneDeadline }, queue)
    else
      match queue with
      | [] => (w, queue)
      | none :: rest => ({ w with status := .doneStop }, rest)
      | some p :: rest =>
        if readOk p then
          ({ w with
              completed := w.completed + 1
              clock := w.clock + readTime p
              events := w.events ++ [(w.clock, p)] }, rest)
        else
          ({ w with status := .failed p }, rest)
  | _ => (w, queue)

/-- One scheduling step: worker `i` performs one loop iteration on the shared
state.  An out-of-range index changes nothing. -/
def step (readOk : P → Bool) (readTime : P → Nat) (exit_time : Nat)
    (s : RunState P) (i : Nat) : RunState P :=
  match s.workers[i]? with
  | none => s
  | some w =>
    let r := benchmark_worker_step readOk readTime exit_time w s.queue
    { queue := r.2, workers := s.workers.set i r.1 }

/-- Execution of a whole schedule (an arbitrary interleaving of the worker
processes, one entry per loop iteration of one worker). -/
def run (readOk : P → Bool) (readTime : P → Nat) (exit_time : Nat) :
    RunState P → List Nat → RunState P
  | s, [] => s
  | s, i :: sched => run readOk readTime exit_time (step readOk readTime exit_time s i) sched

/-- Contents of the shared queue after the producer loop of `benchmark`
(lines 139-142): every path in order, then exactly one stop sentinel per
worker. -/
def initQueue (paths : List P) (queue_depth : Nat) : List (Token P) :=
  paths.map some ++ List.replicate queue_depth none

/-- A freshly started worker (line 133-134): running, zero completed count,
clock at its start time, no events. -/
def initWorker (start : Nat) : Worker P :=
  { status := .running, completed := 0, clock := start, start := start, events := [] }

/-- Initial state of one benchmark invocation with `queue_depth` workers
(lines 132-135) whose start times are given by `startClocks`. -/
def initState (paths : List P) (queue_depth : Nat) (startClocks : Nat → Nat) :
    RunState P :=
  { queue := initQueue paths queue_depth
    workers := (List.range queue_depth).map fun i => initWorker (startClocks i) }

/-- Sum of the per-worker completed counts, as aggregated by the collection
loop of `benchmark` (lines 149-151). -/
def totalCompleted (s : RunState P) : Nat :=
  (s.workers.map Worker.completed).sum

/-- A worker that finished normally and executed lines 117-119, publishing
its completed count on `result_queue`.  A worker whose read raised never
reaches line 118. -/
def finishedOk (w : Worker P) : Bool :=
  match w.status with
  | .doneDeadline => true
  | .doneStop => true
  | _ => false

/-- The multiset of counts available on `result_queue` after all workers were
joined (order of arrival is irrelevant to the sum at line 151). -/
def resultsPut (s : RunState P) : List Nat :=
  (s.workers.filter finishedOk).map Worker.completed

/-- Observable outcome of the tail of `benchmark` (lines 149-154): either the
pair `(completed_count, used_t)` returned at line 154, or `hang`, meaning the
loop at lines 150-151 performed a `result_queue.get()` with no result left to
deliver and blocks forever. -/
inductive RunnerOutcome where
  | result (total used_t : Nat)
  | hang
  deriving DecidableEq

/-- The collection loop of `benchmark` (lines 149-151) followed by the return
at line 154: it performs exactly `queue_depth` blocking `get` calls, so it
returns the summed counts iff every started worker published a result, and
otherwise blocks forever. -/
def collect (queue_depth used_t : Nat) (s : RunState P) : RunnerOutcome :=
  if (resultsPut s).length = queue_depth then .result (resultsPut s).sum used_t
  else .hang

/-- The hard-coded benchmark duration of benchmark.py line 129
(`end_t = time.perf_counter() + 30.0`), in clock units. -/
def benchDuration : Nat := 30

/-- The absolute deadline computed by `benchmark` at line 129 from the clock
value `now` read at that moment: the caller supplies no duration. -/
def benchmark_end_t (now : Nat) : Nat := now + benchDuration

/-- Modelled from the spec: section 4.3 claims the contract
`run(paths, concurrency, duration)` where the absolute deadline is the clock
value at the start of the run plus the caller-supplied `duration`.  The code
in src/benchmark.py has no such parameter. -/
def run_end_t_spec (now duration : Nat) : Nat := now + duration

/-- Modelled from the spec: section 6 claims the core returns a triple of
total completed reads, elapsed time and queue depth per invocation.  The code
at line 154 returns only the pair `(completed_count, used_t)`. -/
def collect_spec (queue_depth used_t : Nat) (s : RunState P) : Option (Nat × Nat × Nat) :=
  if (resultsPut s).length = queue_depth then
    some ((resultsPut s).sum, used_t, queue_depth)
  else none

/-- Fuel-indexed model of `random.shuffle(all_files)` (benchmark.py line
127): CPython Fisher-Yates repeatedly picks a pseudo-random index into the
not-yet-placed part and moves that element into place.  The random draws are
abstracted by `r`; with fuel equal to the list length every element is placed. -/
def shuffleGo (r : Nat → Nat) : Nat → List P → List P
  | 0, xs => xs
  | _ + 1, [] => []
  | fuel + 1, x :: xs =>
    let j := r (x :: xs).length % (x :: xs).length
    (x :: xs).get ⟨j, Nat.mod_lt _ (Nat.succ_pos xs.length)⟩ ::
      shuffleGo r fuel ((x :: xs).eraseIdx j)

/-- The in-place `random.shuffle(all_files)` performed by `benchmark` at line
127: the contents of the callers list after the call. -/
def shuffleModel (r : Nat → Nat) (xs : List P) : List P :=
  shuffleGo r xs.length xs

/-- One whole invocation of `benchmark` (lines 121-154) under a given
schedule: shuffle the callers list in place (line 127), compute the deadline
from the clock value `now` (line 129), start `queue_depth` workers (lines
132-135), enqueue all paths and one sentinel per worker (lines 139-142), and
let the workers run. -/
def benchmarkRun (readOk : P → Bool) (readTime : P → Nat) (all_files : List P)
    (queue_depth : Nat) (r startClocks : Nat → Nat) (now : Nat)
    (sched : List Nat) : RunState P :=
  run readOk readTime (benchmark_end_t now)
    (initState (shuffleModel r all_files) queue_depth startClocks) sched

/-- The path a failed worker had dequeued when its read raised, if any. -/
def failPaths (w : Worker P) : List P :=
  match w.status with
  | .failed p => [p]
  | _ => []

/-- All path tokens this worker has consumed from the queue: the paths it
read successfully plus, for a failed worker, the path whose read raised. -/
def workerPaths (w : Worker P) : List P :=
  w.events.map Prod.snd ++ failPaths w

/-- The multiset of path tokens consumed from the queue by all workers. -/
def consumedPathsM (s : RunState P) : Multiset P :=
  ((s.workers.map fun w => (workerPaths w : Multiset P)).sum)

/-- Number of path tokens (non-sentinel items) dequeued so far, given the
number of paths originally enqueued. -/
def dequeuedPaths (nPaths : Nat) (s : RunState P) : Nat :=
  nPaths - s.queue.countP fun t => t.isSome

/-- The events list of a worker is correctly time-stamped starting from clock
value `c`: each event carries the clock sampled at its loop iteration, and
each read advances the clock by its read time. -/
def timedFromB (readTime : P → Nat) : Nat → List (Nat × P) → Bool
  | _, [] => true
  | c, e :: es => e.1 == c && timedFromB readTime (c + readTime e.2) es

/-- The clock value of a worker that started at `start` after performing the
reads recorded in `es`. -/
def endClock (readTime : P → Nat) (start : Nat) (es : List (Nat × P)) : Nat :=
  start + (es.map fun e => readTime e.2).sum

/-- All workers have left their loop: `w.join()` at lines 146-147 returns. -/
def allDone (s : RunState P) : Bool :=
  s.workers.all fun w => !isRunning w

/-- No worker died from a raised read error. -/
def noFailed (s : RunState P) : Bool :=
  s.workers.all fun w => !isFailed w

/-- No worker has stopped because of the deadline. -/
def noDeadline (s : RunState P) : Bool :=
  s.workers.all fun w => !isDoneDeadline w

/-- Termination measure for the worker pool: tokens still enqueued plus
workers still inside their loop. -/
def runMeasure (s : RunState P) : Nat :=
  s.queue.length + s.workers.countP isRunning

/-! ### The run invariant -/

/-- Facts about every reachable state of one benchmark invocation that
started from `initState paths queue_depth startClocks`. -/
structure Inv (readTime : P → Nat) (exit_time : Nat) (startClocks : Nat → Nat)
    (paths : List P) (queue_depth : Nat) (s : RunState P) : Prop where
  lenW : s.workers.length = queue_depth
  suffix : s.queue <:+ initQueue paths queue_depth
  pathsInv : consumedPathsM s + ↑(s.queue.filterMap id) = (paths : Multiset P)
  sentinelInv :
    s.workers.countP isDoneStop + s.queue.countP (fun t => t.isNone) = queue_depth
  comp : ∀ w ∈ s.workers, w.completed = w.events.length
  timed : ∀ w ∈ s.workers, timedFromB readTime w.start w.events = true
  clockEq : ∀ w ∈ s.workers, w.clock = endClock readTime w.start w.events
  times : ∀ w ∈ s.workers, ∀ e ∈ w.events, e.1 ≤ exit_time
  starts : ∀ w ∈ s.workers, ∃ i, i < queue_depth ∧ w.start = startClocks i


/-! ### Generic list bookkeeping lemmas -/

theorem sum_map_set {α M : Type} [AddCommMonoid M] (F : α → M) :
    ∀ (l : List α) (i : Nat) (b : α) (h : i < l.length),
      ((l.set i b).map F).sum + F (l.get ⟨i, h⟩) = (l.map F).sum + F b := by
  intro l
  induction l with
  | nil => intro i b h; simp at h
  | cons a t ih =>
    intro i b h
    cases i with
    | zero => simp [List.set]; abel
    | succ i =>
      have h' : i < t.length := Nat.lt_of_succ_lt_succ h
      have key := ih i b h'
      simp only [List.set, List.map, List.sum_cons, List.get]
      rw [add_assoc, add_assoc, key]

theorem countP_eq_sum_map {α : Type} (p : α → Bool) (l : List α) :
    l.countP p = (l.map fun a => if p a then 1 else 0).sum := by
  induction l with
  | nil => simp
  | cons a t ih => simp [List.countP_cons, ih]; omega

theorem countP_set {α : Type} (p : α → Bool) (l : List α) (i : Nat) (b : α)
    (h : i < l.length) :
    (l.set i b).countP p + (if p (l.get ⟨i, h⟩) then 1 else 0)
      = l.countP p + (if p b then 1 else 0) := by
  simpa [countP_eq_sum_map] using
    sum_map_set (fun a => if p a then (1 : Nat) else 0) l i b h

theorem set_get_self {α : Type} :
    ∀ (l : List α) (i : Nat) (h : i < l.length), l.set i (l.get ⟨i, h⟩) = l := by
  intro l
  induction l with
  | nil => intro i h; simp at h
  | cons a t ih =>
    intro i h
    cases i with
    | zero => rfl
    | succ i =>
      have h' : i < t.length := Nat.lt_of_succ_lt_succ h
      show a :: t.set i (t.get ⟨i, h'⟩) = a :: t
      rw [ih i h']

theorem get_cons_eraseIdx_perm {α : Type} :
    ∀ (xs : List α) (j : Nat) (h : j < xs.length),
      (xs.get ⟨j, h⟩ :: xs.eraseIdx j).Perm xs := by
  intro xs
  induction xs with
  | nil => intro j h; simp at h
  | cons a t ih =>
    intro j h
    cases j with
    | zero => simp
    | succ j =>
      have h' : j < t.length := Nat.lt_of_succ_lt_succ h
      simpa using (List.Perm.swap a (t.get ⟨j, h'⟩) (t.eraseIdx j)).trans
        (List.Perm.cons a (ih j h'))

theorem shuffleGo_perm (r : Nat → Nat) :
    ∀ (fuel : Nat) (xs : List P), (shuffleGo r fuel xs).Perm xs := by
  intro fuel
  induction fuel with
  | zero => intro xs; simp [shuffleGo]
  | succ fuel ih =>
    intro xs
    cases xs with
    | nil => simp [shuffleGo]
    | cons x t =>
      exact (List.Perm.cons _ (ih _)).trans (get_cons_eraseIdx_perm (x :: t) _ _)

/-- The contents of the callers list after `random.shuffle` is a permutation
of its contents before. -/
theorem shuffleModel_perm (r : Nat → Nat) (xs : List P) :
    (shuffleModel r xs).Perm xs :=
  shuffleGo_perm r xs.length xs

theorem endClock_append_one (readTime : P → Nat) (start : Nat)
    (es : List (Nat × P)) (t : Nat) (p : P) :
    endClock readTime start (es ++ [(t, p)]) = endClock readTime start es + readTime p := by
  simp [endClock]; omega

theorem timedFromB_append (readTime : P → Nat) :
    ∀ (es : List (Nat × P)) (c : Nat) (p : P),
      timedFromB readTime c es = true →
      timedFromB readTime c (es ++ [(endClock readTime c es, p)]) = true := by
  intro es
  induction es with
  | nil => intro c p _; simp [timedFromB, endClock]
  | cons e es ih =>
    intro c p h
    simp only [timedFromB, Bool.and_eq_true, beq_iff_eq] at h
    obtain ⟨h1, h2⟩ := h
    have hshift : endClock readTime c (e :: es) = endClock readTime (c + readTime e.2) es := by
      simp [endClock]; omega
    simp only [List.cons_append, timedFromB, Bool.and_eq_true, beq_iff_eq]
    exact ⟨h1, by rw [hshift]; exact ih _ p h2⟩

/-! ### Branch equations for the worker step -/

theorem bws_not_running {readOk : P → Bool} {readTime : P → Nat} {exit_time : Nat}
    {w : Worker P} {q : List (Token P)} (h : isRunning w = false) :
    benchmark_worker_step readOk readTime exit_time w q = (w, q) := by
  cases hst : w.status <;>
    simp_all [benchmark_worker_step, isRunning]

theorem bws_deadline {readOk : P → Bool} {readTime : P → Nat} {exit_time : Nat}
    {w : Worker P} {q : List (Token P)} (hst : w.status = .running)
    (hdl : exit_time < w.clock) :
    benchmark_worker_step readOk readTime exit_time w q
      = ({ w with status := .doneDeadline }, q) := by
  simp [benchmark_worker_step, hst, hdl]

theorem bws_blocked {readOk : P → Bool} {readTime : P → Nat} {exit_time : Nat}
    {w : Worker P} (hst : w.status = .running) (hdl : ¬ exit_time < w.clock) :
    benchmark_worker_step readOk readTime exit_time w [] = (w, []) := by
  simp [benchmark_worker_step, hst, hdl]

theorem bws_stop {readOk : P → Bool} {readTime : P → Nat} {exit_time : Nat}
    {w : Worker P} {rest : List (Token P)} (hst : w.status = .running)
    (hdl : ¬ exit_time < w.clock) :
    benchmark_worker_step readOk readTime exit_time w (none :: rest)
      = ({ w with status := .doneStop }, rest) := by
  simp [benchmark_worker_step, hst, hdl]

theorem bws_read {readOk : P → Bool} {readTime : P → Nat} {exit_time : Nat}
    {w : Worker P} {p : P} {rest : List (Token P)} (hst : w.status = .running)
    (hdl : ¬ exit_time < w.clock) (hok : readOk p = true) :
    benchmark_worker_step readOk readTime exit_time w (some p :: rest)
      = ({ w with
            completed := w.completed + 1
            clock := w.clock + readTime p
            events := w.events ++ [(w.clock, p)] }, rest) := by
  simp [benchmark_worker_step, hst, hdl, hok]

theorem bws_fail {readOk : P → Bool} {readTime : P → Nat} {exit_time : Nat}
    {w : Worker P} {p : P} {rest : List (Token P)} (hst : w.status = .running)
    (hdl : ¬ exit_time < w.clock) (hok : readOk p = false) :
    benchmark_worker_step readOk readTime exit_time w (some p :: rest)
      = ({ w with status := .failed p }, rest) := by
  simp [benchmark_worker_step, hst, hdl, hok]

theorem step_of_getElem {readOk : P → Bool} {readTime : P → Nat} {exit_time : Nat}
    {s : RunState P} {i : Nat} {w : Worker P} (hg : s.workers[i]? = some w) :
    step readOk readTime exit_time s i
      = { queue := (benchmark_worker_step readOk readTime exit_time w s.queue).2
          workers := s.workers.set i
            (benchmark_worker_step readOk readTime exit_time w s.queue).1 } := by
  simp [step, hg]

theorem step_of_none {readOk : P → Bool} {readTime : P → Nat} {exit_time : Nat}
    {s : RunState P} {i : Nat} (hg : s.workers[i]? = none) :
    step readOk readTime exit_time s i = s := by
  simp [step, hg]

theorem forall_mem_set {α : Type} {l : List α} {i : Nat} {b : α} {Q : α → Prop}
    (hall : ∀ a ∈ l, Q a) (hb : Q b) : ∀ a ∈ l.set i b, Q a := by
  intro a ha
  rcases List.mem_or_eq_of_mem_set ha with h | rfl
  · exact hall a h
  · exact hb

/-! ### Facts about the initial configuration -/

theorem filterMap_id_map_some (l : List P) : (l.map some).filterMap id = l := by
  induction l with
  | nil => rfl
  | cons a t ih => simp [List.filterMap_cons, ih]

theorem filterMap_id_replicate_none (n : Nat) :
    (List.replicate n (none : Token P)).filterMap id = [] := by
  induction n with
  | zero => rfl
  | succ n ih => simp [List.replicate, List.filterMap_cons, ih]

theorem filterMap_id_initQueue (paths : List P) (depth : Nat) :
    (initQueue paths depth).filterMap id = paths := by
  simp [initQueue, List.filterMap_append, filterMap_id_map_some, filterMap_id_replicate_none]

theorem countP_isNone_initQueue (paths : List P) (depth : Nat) :
    (initQueue paths depth).countP (fun t => t.isNone) = depth := by
  simp [initQueue, List.countP_append, List.countP_map, List.countP_replicate]

theorem countP_isSome_initQueue (paths : List P) (depth : Nat) :
    (initQueue paths depth).countP (fun t => t.isSome) = paths.length := by
  simp [initQueue, List.countP_append, List.countP_map, List.countP_replicate]

theorem inv_init (readTime : P → Nat) (exit_time : Nat) (startClocks : Nat → Nat)
    (paths : List P) (queue_depth : Nat) :
    Inv readTime exit_time startClocks paths queue_depth
      (initState paths queue_depth startClocks) := by
  have hmem : ∀ w ∈ ((List.range queue_depth).map fun i =>
        (initWorker (startClocks i) : Worker P)),
      ∃ i, i < queue_depth ∧ w = initWorker (startClocks i) := by
    intro w hw
    rcases List.mem_map.mp hw with ⟨i, hi, rfl⟩
    exact ⟨i, List.mem_range.mp hi, rfl⟩
  constructor
  · simp [initState]
  · exact List.suffix_refl _
  · have hz : consumedPathsM (initState paths queue_depth startClocks) = 0 := by
      simp only [consumedPathsM, initState]
      apply List.sum_eq_zero
      intro x hx
      rcases List.mem_map.mp hx with ⟨w, hw, rfl⟩
      rcases hmem w hw with ⟨i, _, rfl⟩
      simp [workerPaths, failPaths, initWorker]
    rw [hz, zero_add]
    simp [initState, filterMap_id_initQueue]
  · have h0 : ((List.range queue_depth).map fun i =>
        (initWorker (startClocks i) : Worker P)).countP isDoneStop = 0 := by
      rw [List.countP_eq_length_filter, List.filter_eq_nil_iff.mpr, List.length_nil]
      intro w hw
      rcases hmem w hw with ⟨i, _, rfl⟩
      simp [isDoneStop, initWorker]
    simp only [initState]
    rw [h0, Nat.zero_add, countP_isNone_initQueue]
  · intro w hw
    rcases hmem w (by simpa [initState] using hw) with ⟨i, _, rfl⟩
    simp [initWorker]
  · intro w hw
    rcases hmem w (by simpa [initState] using hw) with ⟨i, _, rfl⟩
    simp [initWorker, timedFromB]
  · intro w hw
    rcases hmem w (by simpa [initState] using hw) with ⟨i, _, rfl⟩
    simp [initWorker, endClock]
  · intro w hw
    rcases hmem w (by simpa [initState] using hw) with ⟨i, _, rfl⟩
    simp [initWorker]
  · intro w hw
    rcases hmem w (by simpa [initState] using hw) with ⟨i, hi, rfl⟩
    exact ⟨i, hi, rfl⟩

theorem failPaths_of_running {w : Worker P} (hst : w.status = .running) :
    failPaths w = [] := by
  unfold failPaths
  split <;> simp_all

theorem isDoneStop_of_running {w : Worker P} (hst : w.status = .running) :
    isDoneStop w = false := by
  unfold isDoneStop
  split <;> simp_all

theorem consumed_set_eq {s : RunState P} {i : Nat} {w : Worker P} (w2 : Worker P)
    (hi : i < s.workers.length) (hget : s.workers.get ⟨i, hi⟩ = w)
    (q2 : List (Token P)) :
    consumedPathsM ⟨q2, s.workers.set i w2⟩ + ↑(workerPaths w)
      = consumedPathsM s + ↑(workerPaths w2) := by
  have h := sum_map_set (fun w => (workerPaths w : Multiset P)) s.workers i w2 hi
  rw [hget] at h
  exact h

theorem countP_status_set {l : List (Worker P)} {i : Nat} {w : Worker P} (w2 : Worker P)
    (hi : i < l.length) (hget : l.get ⟨i, hi⟩ = w) (p : Worker P → Bool) :
    (l.set i w2).countP p + (if p w then 1 else 0)
      = l.countP p + (if p w2 then 1 else 0) := by
  have h := countP_set p l i w2 hi
  rw [hget] at h
  exact h

theorem inv_step {readTime : P → Nat} {exit_time : Nat} {startClocks : Nat → Nat}
    {paths : List P} {queue_depth : Nat} (readOk : P → Bool) {s : RunState P} (i : Nat)
    (hinv : Inv readTime exit_time startClocks paths queue_depth s) :
    Inv readTime exit_time startClocks paths queue_depth
      (step readOk readTime exit_time s i) := by
  cases hg : s.workers[i]? with
  | none => rw [step_of_none hg]; exact hinv
  | some w =>
    obtain ⟨hi, hwi⟩ := List.getElem?_eq_some_iff.mp hg
    have hget : s.workers.get ⟨i, hi⟩ = w := by simpa using hwi
    have hmem : w ∈ s.workers := by rw [← hwi]; exact List.getElem_mem hi
    rw [step_of_getElem hg]
    by_cases hrun : isRunning w = true
    case neg =>
      have hnr : isRunning w = false := by simpa using hrun
      rw [bws_not_running hnr]
      have hsw : s.workers.set i w = s.workers := by
        rw [← hget]; exact set_get_self _ _ _
      rw [hsw]
      exact hinv
    case pos =>
      have hst : w.status = .running := by
        cases h : w.status <;> simp_all [isRunning]
      have hfw : failPaths w = [] := failPaths_of_running hst
      have hds : isDoneStop w = false := isDoneStop_of_running hst
      by_cases hdl : exit_time < w.clock
      · -- deadline branch (lines 108-109)
        rw [bws_deadline hst hdl]
        try dsimp only
        have hwp : workerPaths { w with status := WStatus.doneDeadline }
            = workerPaths w := by
          have hfp2 : failPaths { w with status := WStatus.doneDeadline } = ([] : List P) := rfl
          simp [workerPaths, hfp2, hfw]
        constructor
        · simp [hinv.lenW]
        · exact hinv.suffix
        · have hc := consumed_set_eq { w with status := WStatus.doneDeadline } hi hget s.queue
          rw [hwp] at hc
          rw [add_right_cancel hc]
          exact hinv.pathsInv
        · have hcs := countP_status_set { w with status := WStatus.doneDeadline }
            hi hget isDoneStop
          have h1 : isDoneStop { w with status := WStatus.doneDeadline } = false := by
            simp [isDoneStop]
          rw [h1, hds] at hcs
          simp at hcs
          rw [hcs]
          exact hinv.sentinelInv
        · exact forall_mem_set hinv.comp (hinv.comp w hmem)
        · exact forall_mem_set hinv.timed (hinv.timed w hmem)
        · exact forall_mem_set hinv.clockEq (hinv.clockEq w hmem)
        · exact forall_mem_set hinv.times (hinv.times w hmem)
        · exact forall_mem_set hinv.starts (hinv.starts w hmem)
      · -- no deadline: dequeue (line 110)
        cases hq : s.queue with
        | nil =>
          rw [bws_blocked hst hdl]
          have hsw : s.workers.set i w = s.workers := by
            rw [← hget]; exact set_get_self _ _ _
          rw [hsw, ← hq]
          exact hinv
        | cons tok rest =>
          cases tok with
          | none =>
            -- stop sentinel (lines 111-112)
            rw [bws_stop hst hdl]
            try dsimp only
            have hwp : workerPaths { w with status := WStatus.doneStop }
                = workerPaths w := by
              have hfp2 : failPaths { w with status := WStatus.doneStop } = ([] : List P) := rfl
              simp [workerPaths, hfp2, hfw]
            constructor
            · simp [hinv.lenW]
            · have hsuf := hinv.suffix
              rw [hq] at hsuf
              exact (List.suffix_cons none rest).trans hsuf
            · have hc := consumed_set_eq { w with status := WStatus.doneStop } hi hget rest
              rw [hwp] at hc
              rw [add_right_cancel hc]
              have hp := hinv.pathsInv
              rw [hq] at hp
              simpa [List.filterMap_cons] using hp
            · have hcs := countP_status_set { w with status := WStatus.doneStop }
                hi hget isDoneStop
              have h1 : isDoneStop { w with status := WStatus.doneStop } = true := by
                simp [isDoneStop]
              rw [h1, hds] at hcs
              have hs := hinv.sentinelInv
              rw [hq] at hs
              simp [List.countP_cons] at hs
              simp at hcs
              try dsimp only
              omega
            · exact forall_mem_set hinv.comp (hinv.comp w hmem)
            · exact forall_mem_set hinv.timed (hinv.timed w hmem)
            · exact forall_mem_set hinv.clockEq (hinv.clockEq w hmem)
            · exact forall_mem_set hinv.times (hinv.times w hmem)
            · exact forall_mem_set hinv.starts (hinv.starts w hmem)
          | some p =>
            by_cases hok : readOk p = true
            · -- successful read (lines 113-115)
              rw [bws_read hst hdl hok]
              try dsimp only
              have hwp : workerPaths { w with
                    completed := w.completed + 1
                    clock := w.clock + readTime p
                    events := w.events ++ [(w.clock, p)] }
                  = workerPaths w ++ [p] := by
                have hfp2 : failPaths { w with
                    completed := w.completed + 1
                    clock := w.clock + readTime p
                    events := w.events ++ [(w.clock, p)] } = ([] : List P) :=
                  failPaths_of_running hst
                simp [workerPaths, hfp2, hfw]
              constructor
              · simp [hinv.lenW]
              · have hsuf := hinv.suffix
                rw [hq] at hsuf
                exact (List.suffix_cons (some p) rest).trans hsuf
              · have hc := consumed_set_eq ({ w with
                    completed := w.completed + 1
                    clock := w.clock + readTime p
                    events := w.events ++ [(w.clock, p)] }) hi hget rest
                rw [hwp] at hc
                have hsplit : (↑(workerPaths w ++ [p]) : Multiset P)
                    = {p} + ↑(workerPaths w) := by
                  have := Multiset.coe_add (workerPaths w) [p]
                  rw [← this]
                  simp [add_comm]
                rw [hsplit, ← add_assoc] at hc
                have hc2 := add_right_cancel hc
                have hp := hinv.pathsInv
                rw [hq] at hp
                simp only [List.filterMap_cons, id] at hp
                rw [hc2, add_assoc, Multiset.singleton_add]
                simpa using hp
              · have hcs := countP_status_set ({ w with
                    completed := w.completed + 1
                    clock := w.clock + readTime p
                    events := w.events ++ [(w.clock, p)] }) hi hget isDoneStop
                have h1 : isDoneStop { w with
                    completed := w.completed + 1
                    clock := w.clock + readTime p
                    events := w.events ++ [(w.clock, p)] } = false :=
                  isDoneStop_of_running hst
                rw [h1, hds] at hcs
                have hs := hinv.sentinelInv
                rw [hq] at hs
                simp [List.countP_cons] at hs
                simp at hcs
                try dsimp only
                omega
              · refine forall_mem_set hinv.comp ?_
                have := hinv.comp w hmem
                simp [this]
              · refine forall_mem_set hinv.timed ?_
                have hce := hinv.clockEq w hmem
                have := timedFromB_append readTime w.events w.start p (hinv.timed w hmem)
                simpa [← hce] using this
              · refine forall_mem_set hinv.clockEq ?_
                have hce := hinv.clockEq w hmem
                simp [endClock_append_one, ← hce]
              · refine forall_mem_set hinv.times ?_
                intro e he
                simp only [List.mem_append, List.mem_singleton] at he
                rcases he with he | rfl
                · exact hinv.times w hmem e he
                · exact Nat.le_of_not_lt hdl
              · refine forall_mem_set hinv.starts ?_
                exact hinv.starts w hmem
            · -- read raised (lines 113-114), worker dies
              have hok' : readOk p = false := by simpa using hok
              rw [bws_fail hst hdl hok']
              try dsimp only
              have hwp : workerPaths { w with status := WStatus.failed p }
                  = workerPaths w ++ [p] := by
                have hfp2 : failPaths { w with status := WStatus.failed p } = [p] := rfl
                simp [workerPaths, hfp2, hfw]
              constructor
              · simp [hinv.lenW]
              · have hsuf := hinv.suffix
                rw [hq] at hsuf
                exact (List.suffix_cons (some p) rest).trans hsuf
              · have hc := consumed_set_eq { w with status := WStatus.failed p } hi hget rest
                rw [hwp] at hc
                have hsplit : (↑(workerPaths w ++ [p]) : Multiset P)
                    = {p} + ↑(workerPaths w) := by
                  have := Multiset.coe_add (workerPaths w) [p]
                  rw [← this]
                  simp [add_comm]
                rw [hsplit, ← add_assoc] at hc
                have hc2 := add_right_cancel hc
                have hp := hinv.pathsInv
                rw [hq] at hp
                simp only [List.filterMap_cons, id] at hp
                rw [hc2, add_assoc, Multiset.singleton_add]
                simpa using hp
              · have hcs := countP_status_set { w with status := WStatus.failed p }
                  hi hget isDoneStop
                have h1 : isDoneStop { w with status := WStatus.failed p } = false := by
                  simp [isDoneStop]
                rw [h1, hds] at hcs
                have hs := hinv.sentinelInv
                rw [hq] at hs
                simp [List.countP_cons] at hs
                simp at hcs
                try dsimp only
                omega
              · exact forall_mem_set hinv.comp (hinv.comp w hmem)
              · exact forall_mem_set hinv.timed (hinv.timed w hmem)
              · exact forall_mem_set hinv.clockEq (hinv.clockEq w hmem)
              · exact forall_mem_set hinv.times (hinv.times w hmem)
              · exact forall_mem_set hinv.starts (hinv.starts w hmem)

theorem inv_run {readTime : P → Nat} {exit_time : Nat} {startClocks : Nat → Nat}
    {paths : List P} {queue_depth : Nat} (readOk : P → Bool) :
    ∀ (sched : List Nat) (s : RunState P),
      Inv readTime exit_time startClocks paths queue_depth s →
      Inv readTime exit_time startClocks paths queue_depth
        (run readOk readTime exit_time s sched) := by
  intro sched
  induction sched with
  | nil => intro s hinv; exact hinv
  | cons i sched ih =>
    intro s hinv
    exact ih _ (inv_step readOk i hinv)

/-! ### Status bookkeeping -/

theorem failPaths_of_not_failed {w : Worker P} (h : isFailed w = false) :
    failPaths w = [] := by
  cases hs : w.status <;> simp_all [isFailed, failPaths]

theorem isRunning_false_of_failed {w : Worker P} (h : isFailed w = true) :
    isRunning w = false := by
  cases hs : w.status <;> simp_all [isFailed, isRunning]

theorem finishedOk_false_of_failed {w : Worker P} (h : isFailed w = true) :
    finishedOk w = false := by
  cases hs : w.status <;> simp_all [isFailed, finishedOk]

theorem isDoneStop_of_statuses {w : Worker P} (h1 : isRunning w = false)
    (h2 : isDoneDeadline w = false) (h3 : isFailed w = false) :
    isDoneStop w = true := by
  cases hs : w.status <;> simp_all [isRunning, isDoneDeadline, isFailed, isDoneStop]

theorem finishedOk_of_statuses {w : Worker P} (h1 : isRunning w = false)
    (h3 : isFailed w = false) : finishedOk w = true := by
  cases hs : w.status <;> simp_all [isRunning, isFailed, finishedOk]

/-! ### Multiset consequences of the invariant -/

theorem consumed_le_paths {readTime : P → Nat} {exit_time : Nat}
    {startClocks : Nat → Nat} {paths : List P} {queue_depth : Nat} {s : RunState P}
    (hinv : Inv readTime exit_time startClocks paths queue_depth s) :
    consumedPathsM s ≤ (paths : Multiset P) :=
  Multiset.le_iff_exists_add.mpr ⟨_, hinv.pathsInv.symm⟩

theorem coe_le_sum_map {l : List (Worker P)} {w : Worker P} (h : w ∈ l) :
    (↑(workerPaths w) : Multiset P)
      ≤ ((l.map fun w2 => (workerPaths w2 : Multiset P)).sum) := by
  induction l with
  | nil => cases h
  | cons a t ih =>
    rcases List.mem_cons.mp h with rfl | h2
    · simp only [List.map_cons, List.sum_cons]
      exact Multiset.le_add_right _ _
    · simp only [List.map_cons, List.sum_cons]
      exact (ih h2).trans (Multiset.le_add_left _ _)

theorem events_le_paths {readTime : P → Nat} {exit_time : Nat}
    {startClocks : Nat → Nat} {paths : List P} {queue_depth : Nat} {s : RunState P}
    (hinv : Inv readTime exit_time startClocks paths queue_depth s)
    {w : Worker P} (h : w ∈ s.workers) :
    (↑(w.events.map Prod.snd) : Multiset P) ≤ (paths : Multiset P) := by
  refine le_trans ?_ ((coe_le_sum_map h).trans (consumed_le_paths hinv))
  exact Multiset.le_iff_exists_add.mpr ⟨↑(failPaths w), (Multiset.coe_add _ _).symm⟩

theorem multiset_nat_sum_le {s t : Multiset Nat} (h : s ≤ t) : s.sum ≤ t.sum := by
  rcases Multiset.le_iff_exists_add.mp h with ⟨u, rfl⟩
  simp

theorem clock_le_of_generous {readTime : P → Nat} {exit_time : Nat}
    {startClocks : Nat → Nat} {paths : List P} {queue_depth : Nat} {s : RunState P}
    (hinv : Inv readTime exit_time startClocks paths queue_depth s)
    (hgen : ∀ i, startClocks i + (paths.map readTime).sum ≤ exit_time) :
    ∀ w ∈ s.workers, w.clock ≤ exit_time := by
  intro w hw
  obtain ⟨i0, _, hstart⟩ := hinv.starts w hw
  have hce := hinv.clockEq w hw
  have hev : (↑(w.events.map Prod.snd) : Multiset P) ≤ (paths : Multiset P) :=
    events_le_paths hinv hw
  have hmap := Multiset.map_le_map (f := readTime) hev
  rw [Multiset.map_coe, Multiset.map_coe] at hmap
  have hsum := multiset_nat_sum_le hmap
  rw [Multiset.sum_coe, Multiset.sum_coe] at hsum
  have hsum2 : (w.events.map fun e => readTime e.2).sum ≤ (paths.map readTime).sum := by
    rw [List.map_map] at hsum
    simpa [Function.comp] using hsum
  rw [hce]
  simp only [endClock]
  rw [hstart]
  have := hgen i0
  omega

/-! ### Preservation of no-failure and no-deadline -/

theorem isRunning_false_of_ne_running {w : Worker P} (h : w.status ≠ .running) :
    isRunning w = false := by
  cases hs : w.status <;> simp_all [isRunning]

theorem bws_not_failed {readOk : P → Bool} {readTime : P → Nat} {exit_time : Nat}
    {w : Worker P} {q : List (Token P)} (hall : ∀ p, readOk p = true)
    (hnf : isFailed w = false) :
    isFailed (benchmark_worker_step readOk readTime exit_time w q).1 = false := by
  by_cases hst : w.status = WStatus.running
  · by_cases hdl : exit_time < w.clock
    · rw [bws_deadline hst hdl]; rfl
    · cases q with
      | nil => rw [bws_blocked hst hdl]; exact hnf
      | cons tok rest =>
        cases tok with
        | none => rw [bws_stop hst hdl]; rfl
        | some p => rw [bws_read hst hdl (hall p)]; exact hnf
  · rw [bws_not_running (isRunning_false_of_ne_running hst)]; exact hnf

theorem bws_not_deadline {readOk : P → Bool} {readTime : P → Nat} {exit_time : Nat}
    {w : Worker P} {q : List (Token P)} (hcl : w.clock ≤ exit_time)
    (hnd : isDoneDeadline w = false) :
    isDoneDeadline (benchmark_worker_step readOk readTime exit_time w q).1 = false := by
  by_cases hst : w.status = WStatus.running
  · have hdl : ¬ exit_time < w.clock := Nat.not_lt.mpr hcl
    cases q with
    | nil => rw [bws_blocked hst hdl]; exact hnd
    | cons tok rest =>
      cases tok with
      | none => rw [bws_stop hst hdl]; rfl
      | some p =>
        by_cases hok : readOk p = true
        · rw [bws_read hst hdl hok]; exact hnd
        · rw [bws_fail hst hdl (by simpa using hok)]; rfl
  · rw [bws_not_running (isRunning_false_of_ne_running hst)]; exact hnd

theorem noFailed_step {readOk : P → Bool} {readTime : P → Nat} {exit_time : Nat}
    {s : RunState P} (i : Nat) (hall : ∀ p, readOk p = true)
    (hnf : noFailed s = true) :
    noFailed (step readOk readTime exit_time s i) = true := by
  cases hg : s.workers[i]? with
  | none => rw [step_of_none hg]; exact hnf
  | some w =>
    obtain ⟨hi, hwi⟩ := List.getElem?_eq_some_iff.mp hg
    have hmem : w ∈ s.workers := by rw [← hwi]; exact List.getElem_mem hi
    rw [step_of_getElem hg]
    simp only [noFailed, List.all_eq_true, Bool.not_eq_true'] at hnf ⊢
    intro w2 hw2
    rcases List.mem_or_eq_of_mem_set hw2 with h | rfl
    · exact hnf w2 h
    · exact bws_not_failed hall (hnf w hmem)

theorem noFailed_run {readOk : P → Bool} {readTime : P → Nat} {exit_time : Nat}
    (hall : ∀ p, readOk p = true) :
    ∀ (sched : List Nat) (s : RunState P), noFailed s = true →
      noFailed (run readOk readTime exit_time s sched) = true := by
  intro sched
  induction sched with
  | nil => intro s h; exact h
  | cons i sched ih => intro s h; exact ih _ (noFailed_step i hall h)

theorem noDeadline_step {readOk : P → Bool} {readTime : P → Nat} {exit_time : Nat}
    {startClocks : Nat → Nat} {paths : List P} {queue_depth : Nat}
    {s : RunState P} (i : Nat)
    (hinv : Inv readTime exit_time startClocks paths queue_depth s)
    (hgen : ∀ j, startClocks j + (paths.map readTime).sum ≤ exit_time)
    (hnd : noDeadline s = true) :
    noDeadline (step readOk readTime exit_time s i) = true := by
  cases hg : s.workers[i]? with
  | none => rw [step_of_none hg]; exact hnd
  | some w =>
    obtain ⟨hi, hwi⟩ := List.getElem?_eq_some_iff.mp hg
    have hmem : w ∈ s.workers := by rw [← hwi]; exact List.getElem_mem hi
    rw [step_of_getElem hg]
    simp only [noDeadline, List.all_eq_true, Bool.not_eq_true'] at hnd ⊢
    intro w2 hw2
    rcases List.mem_or_eq_of_mem_set hw2 with h | rfl
    · exact hnd w2 h
    · exact bws_not_deadline (clock_le_of_generous hinv hgen w hmem) (hnd w hmem)

theorem noDeadline_run {readOk : P → Bool} {readTime : P → Nat} {exit_time : Nat}
    {startClocks : Nat → Nat} {paths : List P} {queue_depth : Nat}
    (hgen : ∀ j, startClocks j + (paths.map readTime).sum ≤ exit_time) :
    ∀ (sched : List Nat) (s : RunState P),
      Inv readTime exit_time startClocks paths queue_depth s →
      noDeadline s = true →
      noDeadline (run readOk readTime exit_time s sched) = true := by
  intro sched
  induction sched with
  | nil => intro s _ h; exact h
  | cons i sched ih =>
    intro s hinv h
    exact ih _ (inv_step _ i hinv) (noDeadline_step i hinv hgen h)

/-! ### Progress and termination of the worker pool -/

theorem queue_ne_nil_of_running {readTime : P → Nat} {exit_time : Nat}
    {startClocks : Nat → Nat} {paths : List P} {queue_depth : Nat} {s : RunState P}
    (hinv : Inv readTime exit_time startClocks paths queue_depth s)
    {w : Worker P} (hw : w ∈ s.workers) (hr : isRunning w = true) :
    s.queue ≠ [] := by
  intro hq
  have hs := hinv.sentinelInv
  rw [hq] at hs
  simp only [List.countP_nil, Nat.add_zero] at hs
  have hall : ∀ w2 ∈ s.workers, isDoneStop w2 = true := by
    rw [← hinv.lenW] at hs
    exact List.countP_eq_length.mp hs
  have := hall w hw
  cases h2 : w.status <;> simp_all [isRunning, isDoneStop]

theorem step_decreases {readOk : P → Bool} {readTime : P → Nat} {exit_time : Nat}
    {s : RunState P} {i : Nat} {w : Worker P}
    (hg : s.workers[i]? = some w) (hr : isRunning w = true) (hq : s.queue ≠ []) :
    runMeasure (step readOk readTime exit_time s i) < runMeasure s := by
  obtain ⟨hi, hwi⟩ := List.getElem?_eq_some_iff.mp hg
  have hget : s.workers.get ⟨i, hi⟩ = w := by simpa using hwi
  have hst : w.status = WStatus.running := by
    cases h2 : w.status <;> simp_all [isRunning]
  rw [step_of_getElem hg]
  by_cases hdl : exit_time < w.clock
  · rw [bws_deadline hst hdl]
    try dsimp only
    have hcs := countP_status_set { w with status := WStatus.doneDeadline }
      hi hget isRunning
    have h1 : isRunning { w with status := WStatus.doneDeadline } = false := rfl
    rw [h1, hr] at hcs
    simp only [runMeasure]
    try dsimp only
    simp at hcs
    omega
  · cases hqe : s.queue with
    | nil => exact absurd hqe hq
    | cons tok rest =>
      cases tok with
      | none =>
        rw [bws_stop hst hdl]
        try dsimp only
        have hcs := countP_status_set { w with status := WStatus.doneStop }
          hi hget isRunning
        have h1 : isRunning { w with status := WStatus.doneStop } = false := rfl
        rw [h1, hr] at hcs
        simp only [runMeasure]
        try dsimp only
        simp at hcs
        rw [hqe]
        simp [List.length_cons]
        omega
      | some p =>
        by_cases hok : readOk p = true
        · rw [bws_read hst hdl hok]
          try dsimp only
          have hcs := countP_status_set ({ w with
              completed := w.completed + 1
              clock := w.clock + readTime p
              events := w.events ++ [(w.clock, p)] }) hi hget isRunning
          have h1 : isRunning { w with
              completed := w.completed + 1
              clock := w.clock + readTime p
              events := w.events ++ [(w.clock, p)] } = true := hr
          rw [h1, hr] at hcs
          simp only [runMeasure]
          try dsimp only
          simp at hcs
          rw [hqe]
          simp [List.length_cons]
          omega
        · rw [bws_fail hst hdl (by simpa using hok)]
          try dsimp only
          have hcs := countP_status_set { w with status := WStatus.failed p }
            hi hget isRunning
          have h1 : isRunning { w with status := WStatus.failed p } = false := rfl
          rw [h1, hr] at hcs
          simp only [runMeasure]
          try dsimp only
          simp at hcs
          rw [hqe]
          simp [List.length_cons]
          omega

theorem exists_completing_sched {readOk : P → Bool} {readTime : P → Nat}
    {exit_time : Nat} {startClocks : Nat → Nat} {paths : List P} {queue_depth : Nat} :
    ∀ (n : Nat) (s : RunState P),
      Inv readTime exit_time startClocks paths queue_depth s → runMeasure s ≤ n →
      ∃ sched, allDone (run readOk readTime exit_time s sched) = true := by
  intro n
  induction n with
  | zero =>
    intro s hinv hm
    refine ⟨[], ?_⟩
    simp only [run, allDone, List.all_eq_true, Bool.not_eq_true']
    intro w hw
    have hc : s.workers.countP isRunning = 0 := by
      simp only [runMeasure] at hm
      omega
    simpa using List.countP_eq_zero.mp hc w hw
  | succ n ih =>
    intro s hinv hm
    by_cases hd : allDone s = true
    · exact ⟨[], hd⟩
    · have hex : ∃ w ∈ s.workers, isRunning w = true := by
        simp only [allDone, List.all_eq_true, Bool.not_eq_true'] at hd
        push_neg at hd
        obtain ⟨w, hw, hww⟩ := hd
        exact ⟨w, hw, by simpa using hww⟩
      obtain ⟨w, hw, hr⟩ := hex
      obtain ⟨j, hjl, hj⟩ := List.mem_iff_getElem.mp hw
      have hg : s.workers[j]? = some w := by
        rw [List.getElem?_eq_getElem hjl, hj]
      have hqn := queue_ne_nil_of_running hinv hw hr
      have hdec := @step_decreases P readOk readTime exit_time s j w hg hr hqn
      obtain ⟨sched, hs⟩ := ih (step readOk readTime exit_time s j)
        (inv_step readOk j hinv) (by omega)
      exact ⟨j :: sched, hs⟩

/-! ### Counting completed reads -/

theorem card_sum_workerPaths (l : List (Worker P)) :
    Multiset.card ((l.map fun w => (workerPaths w : Multiset P)).sum)
      = (l.map fun w => (workerPaths w).length).sum := by
  induction l with
  | nil => simp
  | cons a t ih => simp [Multiset.card_add, Multiset.coe_card, ih]

theorem length_filterMap_id_queue (q : List (Token P)) :
    (q.filterMap id).length = q.countP fun t => t.isSome := by
  rw [List.length_filterMap_eq_countP]
  rfl

theorem total_completed_eq {readTime : P → Nat} {exit_time : Nat}
    {startClocks : Nat → Nat} {paths : List P} {queue_depth : Nat} {s : RunState P}
    (hinv : Inv readTime exit_time startClocks paths queue_depth s)
    (hnf : noFailed s = true) :
    totalCompleted s + s.queue.countP (fun t => t.isSome) = paths.length := by
  have hp := congrArg Multiset.card hinv.pathsInv
  rw [Multiset.card_add, Multiset.coe_card, Multiset.coe_card] at hp
  have hc1 : Multiset.card (consumedPathsM s) = totalCompleted s := by
    simp only [consumedPathsM]
    rw [card_sum_workerPaths]
    simp only [totalCompleted]
    congr 1
    apply List.map_congr_left
    intro w hw
    have hnf2 : isFailed w = false := by
      simp only [noFailed, List.all_eq_true, Bool.not_eq_true'] at hnf
      exact hnf w hw
    simp [workerPaths, failPaths_of_not_failed hnf2, hinv.comp w hw]
  rw [← hc1, ← length_filterMap_id_queue]
  exact hp

theorem all_doneStop_of_statuses {s : RunState P} (hdone : allDone s = true)
    (hnf : noFailed s = true) (hnd : noDeadline s = true) :
    ∀ w ∈ s.workers, isDoneStop w = true := by
  intro w hw
  simp only [allDone, noFailed, noDeadline, List.all_eq_true, Bool.not_eq_true'] at hdone hnf hnd
  exact isDoneStop_of_statuses (hdone w hw) (hnd w hw) (hnf w hw)

theorem queue_nil_of_all_doneStop {readTime : P → Nat} {exit_time : Nat}
    {startClocks : Nat → Nat} {paths : List P} {queue_depth : Nat} {s : RunState P}
    (hinv : Inv readTime exit_time startClocks paths queue_depth s)
    (hdepth : 1 ≤ queue_depth)
    (hall : ∀ w ∈ s.workers, isDoneStop w = true) : s.queue = [] := by
  have hcount : s.workers.countP isDoneStop = queue_depth := by
    rw [List.countP_eq_length.mpr hall, hinv.lenW]
  have hq0 : s.queue.countP (fun t => t.isNone) = 0 := by
    have := hinv.sentinelInv
    omega
  by_contra hne
  obtain ⟨pre, hpre⟩ := hinv.suffix
  have hsplit : initQueue paths queue_depth
      = (paths.map some ++ List.replicate (queue_depth - 1) none) ++ [none] := by
    simp only [initQueue]
    have hd : queue_depth = (queue_depth - 1) + 1 := by omega
    rw [List.append_assoc, ← List.replicate_succ', ← hd]
  have hlast : s.queue.getLast? = some none := by
    rw [← List.getLast?_append_of_ne_nil pre hne, hpre, hsplit, List.getLast?_concat]
  have hmem := List.mem_of_getLast?_eq_some hlast
  have hpos : 0 < s.queue.countP (fun t => t.isNone) :=
    List.countP_pos_iff.mpr ⟨none, hmem, rfl⟩
  omega

theorem total_of_complete {readTime : P → Nat} {exit_time : Nat}
    {startClocks : Nat → Nat} {paths : List P} {queue_depth : Nat} {s : RunState P}
    (hinv : Inv readTime exit_time startClocks paths queue_depth s)
    (hdepth : 1 ≤ queue_depth)
    (hall : ∀ w ∈ s.workers, isDoneStop w = true)
    (hnf : noFailed s = true) :
    totalCompleted s = paths.length := by
  have hq := queue_nil_of_all_doneStop hinv hdepth hall
  have h := total_completed_eq hinv hnf
  rw [hq] at h
  simpa using h

/-! ### The result collection loop -/

theorem resultsPut_length_of_all {s : RunState P}
    (hfin : ∀ w ∈ s.workers, finishedOk w = true) :
    (resultsPut s).length = s.workers.length := by
  simp [resultsPut, List.filter_eq_self.mpr hfin]

theorem resultsPut_sum_of_all {s : RunState P}
    (hfin : ∀ w ∈ s.workers, finishedOk w = true) :
    (resultsPut s).sum = totalCompleted s := by
  simp [resultsPut, totalCompleted, List.filter_eq_self.mpr hfin]

theorem collect_result_of_all {s : RunState P} {depth t : Nat}
    (hlen : s.workers.length = depth)
    (hfin : ∀ w ∈ s.workers, finishedOk w = true) :
    collect depth t s = .result (totalCompleted s) t := by
  simp [collect, resultsPut_length_of_all hfin, hlen, resultsPut_sum_of_all hfin]

theorem collect_hang_of_failed {s : RunState P} {depth t : Nat}
    (hlen : s.workers.length = depth)
    {w : Worker P} (hw : w ∈ s.workers) (hf : isFailed w = true) :
    collect depth t s = .hang := by
  have hlt : (resultsPut s).length < depth := by
    have h1 : (resultsPut s).length = s.workers.countP finishedOk := by
      simp [resultsPut, List.countP_eq_length_filter]
    have h2 : s.workers.countP finishedOk < s.workers.length := by
      rcases Nat.lt_or_ge (s.workers.countP finishedOk) s.workers.length with h | h
      · exact h
      · exfalso
        have heq : s.workers.countP finishedOk = s.workers.length :=
          Nat.le_antisymm (List.countP_le_length finishedOk) h
        have := List.countP_eq_length.mp heq w hw
        rw [finishedOk_false_of_failed hf] at this
        exact Bool.false_ne_true this
    omega
  simp [collect, Nat.ne_of_lt hlt]

/-! ### Unique consumption -/

theorem coe_flatMap_workerPaths (l : List (Worker P)) :
    (↑(l.flatMap workerPaths) : Multiset P)
      = (l.map fun w => (workerPaths w : Multiset P)).sum := by
  induction l with
  | nil => simp
  | cons a t ih => simp [← Multiset.coe_add, ih]

theorem consumed_nodup {readTime : P → Nat} {exit_time : Nat}
    {startClocks : Nat → Nat} {paths : List P} {queue_depth : Nat} {s : RunState P}
    (hinv : Inv readTime exit_time startClocks paths queue_depth s)
    (hnd : paths.Nodup) :
    (s.workers.flatMap workerPaths).Nodup := by
  have hle : (↑(s.workers.flatMap workerPaths) : Multiset P) ≤ (paths : Multiset P) := by
    rw [coe_flatMap_workerPaths]
    exact consumed_le_paths hinv
  have h := Multiset.nodup_of_le hle (Multiset.coe_nodup.mpr hnd)
  exact Multiset.coe_nodup.mp h

/-! ### Deadline discipline of the dequeue loop -/

theorem step_queue_changed {readOk : P → Bool} {readTime : P → Nat} {exit_time : Nat}
    {s : RunState P} {i : Nat}
    (hch : (step readOk readTime exit_time s i).queue ≠ s.queue) :
    ∃ w, s.workers[i]? = some w ∧ isRunning w = true ∧ w.clock ≤ exit_time := by
  cases hg : s.workers[i]? with
  | none => rw [step_of_none hg] at hch; exact absurd rfl hch
  | some w =>
    rw [step_of_getElem hg] at hch
    by_cases hrun : isRunning w = true
    · by_cases hdl : exit_time < w.clock
      · have hst : w.status = WStatus.running := by
          cases h2 : w.status <;> simp_all [isRunning]
        rw [bws_deadline hst hdl] at hch
        exact absurd rfl hch
      · exact ⟨w, rfl, hrun, Nat.le_of_not_lt hdl⟩
    · rw [bws_not_running (by simpa using hrun)] at hch
      exact absurd rfl hch

theorem noFailed_init (paths : List P) (d : Nat) (sc : Nat → Nat) :
    noFailed (initState paths d sc) = true := by
  simp only [noFailed, List.all_eq_true, initState]
  intro w hw
  rcases List.mem_map.mp hw with ⟨i, _, rfl⟩
  rfl

theorem noDeadline_init (paths : List P) (d : Nat) (sc : Nat → Nat) :
    noDeadline (initState paths d sc) = true := by
  simp only [noDeadline, List.all_eq_true, initState]
  intro w hw
  rcases List.mem_map.mp hw with ⟨i, _, rfl⟩
  rfl

theorem step_of_not_running {readOk : P → Bool} {readTime : P → Nat} {exit_time : Nat}
    {s : RunState P} {i : Nat} {w : Worker P}
    (hg : s.workers[i]? = some w) (hnr : isRunning w = false) :
    step readOk readTime exit_time s i = s := by
  obtain ⟨hi, hwi⟩ := List.getElem?_eq_some_iff.mp hg
  rw [step_of_getElem hg, bws_not_running hnr]
  have hget : s.workers.get ⟨i, hi⟩ = w := by simpa using hwi
  have hsw : s.workers.set i w = s.workers := by
    rw [← hget]; exact set_get_self _ _ _
  rw [hsw]

/-! ### Claim theorems -/

/-- C1: for every non-empty path set and every concurrency level at least 1,
under any worker interleaving in which all reads succeed and every worker has
stopped (via deadline or stop sentinel), the runner returns exactly the summed
count, that count equals the number of path tokens (non-sentinel items)
actually dequeued from the work queue, and it is at most the number of paths
supplied. -/
theorem c1_total_eq_dequeued (readOk : P → Bool) (readTime : P → Nat)
    (all_files : List P) (queue_depth : Nat) (r startClocks : Nat → Nat)
    (now used_t : Nat) (sched : List Nat) (s : RunState P)
    (hs : s = benchmarkRun readOk readTime all_files queue_depth r startClocks now sched)
    (hall : ∀ p, readOk p = true)
    (_hne : all_files ≠ []) (_hdepth : 1 ≤ queue_depth)
    (hdone : allDone s = true) :
    collect queue_depth used_t s = RunnerOutcome.result (totalCompleted s) used_t
    ∧ totalCompleted s = dequeuedPaths all_files.length s
    ∧ totalCompleted s ≤ all_files.length := by
  subst hs
  simp only [benchmarkRun] at hdone ⊢
  have hinv := inv_run readOk sched _
    (inv_init readTime (benchmark_end_t now) startClocks
      (shuffleModel r all_files) queue_depth)
  have hnf := @noFailed_run P readOk readTime (benchmark_end_t now) hall sched _
    (noFailed_init (shuffleModel r all_files) queue_depth startClocks)
  have hnfp : ∀ w ∈ (run readOk readTime (benchmark_end_t now)
      (initState (shuffleModel r all_files) queue_depth startClocks)
      sched).workers, isFailed w = false := by
    simp only [noFailed, List.all_eq_true, Bool.not_eq_true'] at hnf
    exact hnf
  have hdp : ∀ w ∈ (run readOk readTime (benchmark_end_t now)
      (initState (shuffleModel r all_files) queue_depth startClocks)
      sched).workers, isRunning w = false := by
    simp only [allDone, List.all_eq_true, Bool.not_eq_true'] at hdone
    exact hdone
  have hfin : ∀ w ∈ (run readOk readTime (benchmark_end_t now)
      (initState (shuffleModel r all_files) queue_depth startClocks)
      sched).workers, finishedOk w = true := fun w hw =>
    finishedOk_of_statuses (hdp w hw) (hnfp w hw)
  have hlen := (shuffleModel_perm r all_files).length_eq
  have heq := total_completed_eq hinv hnf
  rw [hlen] at heq
  refine ⟨collect_result_of_all hinv.lenW hfin, ?_, ?_⟩
  · simp only [dequeuedPaths]
    omega
  · omega

/-- C1 witness: a concrete complete run with two paths and one worker. -/
theorem c1_witness :
    collect 1 5 (benchmarkRun (fun _ => true) (fun _ => 1) [10, 20] 1
        (fun _ => 0) (fun _ => 0) 0 [0, 0, 0])
      = RunnerOutcome.result (totalCompleted (benchmarkRun (fun _ => true)
          (fun _ => 1) [10, 20] 1 (fun _ => 0) (fun _ => 0) 0 [0, 0, 0])) 5
    ∧ totalCompleted (benchmarkRun (fun _ => true) (fun _ => 1) [10, 20] 1
        (fun _ => 0) (fun _ => 0) 0 [0, 0, 0])
      = dequeuedPaths 2 (benchmarkRun (fun _ => true) (fun _ => 1) [10, 20] 1
        (fun _ => 0) (fun _ => 0) 0 [0, 0, 0])
    ∧ totalCompleted (benchmarkRun (fun _ => true) (fun _ => 1) [10, 20] 1
        (fun _ => 0) (fun _ => 0) 0 [0, 0, 0]) ≤ 2 :=
  c1_total_eq_dequeued (fun _ => true) (fun _ => 1) [10, 20] 1
    (fun _ => 0) (fun _ => 0) 0 5 [0, 0, 0] _ rfl (fun _ => rfl)
    (by decide) (by decide) (by decide)

/-- C2: in a single benchmark run over pairwise distinct paths, every path
enqueued into the work queue is consumed by at most one worker: the
concatenation over all workers of the path tokens each one dequeued contains
no duplicate, under every interleaving. -/
theorem c2_unique_consumption (readOk : P → Bool) (readTime : P → Nat)
    (all_files : List P) (queue_depth : Nat) (r startClocks : Nat → Nat)
    (now : Nat) (sched : List Nat) (hnd : all_files.Nodup) :
    ((benchmarkRun readOk readTime all_files queue_depth r startClocks
        now sched).workers.flatMap workerPaths).Nodup := by
  have hinv := inv_run readOk sched _
    (inv_init readTime (benchmark_end_t now) startClocks
      (shuffleModel r all_files) queue_depth)
  exact consumed_nodup hinv ((shuffleModel_perm r all_files).nodup_iff.mpr hnd)

/-- C2 witness: a concrete two-worker run over distinct paths. -/
theorem c2_witness :
    ((benchmarkRun (fun _ => true) (fun _ => 1) [10, 20, 30] 2
        (fun _ => 0) (fun _ => 0) 0 [0, 1, 0, 1, 0]).workers.flatMap
        workerPaths).Nodup :=
  c2_unique_consumption (fun _ => true) (fun _ => 1) [10, 20, 30] 2
    (fun _ => 0) (fun _ => 0) 0 [0, 1, 0, 1, 0] (by decide)

/-- C4 counterexample: the deadline computed by the code is the clock value
plus the hard-coded 30.0 seconds of line 129, not the clock value plus a
caller-supplied duration; for an intended duration of 5 the two differ. -/
theorem c4_counterexample : benchmark_end_t 0 ≠ run_end_t_spec 0 5 := by decide

/-- C4 amended: the runner has no duration parameter; the absolute deadline
shared by all workers equals the clock value at the start of the run plus the
fixed 30-unit duration hard-coded at line 129 (the third parameter of
benchmark is the drop_caches flag, not a duration). -/
theorem c4_deadline_hardcoded (readOk : P → Bool) (readTime : P → Nat)
    (all_files : List P) (queue_depth : Nat) (r startClocks : Nat → Nat)
    (now : Nat) (sched : List Nat) :
    benchmark_end_t now = now + 30
    ∧ benchmarkRun readOk readTime all_files queue_depth r startClocks now sched
      = run readOk readTime (now + 30)
          (initState (shuffleModel r all_files) queue_depth startClocks) sched :=
  ⟨rfl, rfl⟩

/-- C5: a worker samples the clock and checks the deadline before every
dequeue: every successful read event across any interleaving was dequeued at
a sampled clock not exceeding the deadline, and any step that consumes a
token from the queue was taken by a running worker whose sampled clock was at
most the deadline; a worker whose sampled clock exceeds the deadline
terminates immediately without dequeuing. -/
theorem c5_deadline_checked_before_dequeue (readOk : P → Bool)
    (readTime : P → Nat) (exit_time : Nat) (paths : List P) (queue_depth : Nat)
    (startClocks : Nat → Nat) (sched : List Nat) (i : Nat) (s : RunState P)
    (hs : s = run readOk readTime exit_time
      (initState paths queue_depth startClocks) sched) :
    (∀ w ∈ s.workers, ∀ e ∈ w.events, e.1 ≤ exit_time)
    ∧ ((step readOk readTime exit_time s i).queue ≠ s.queue →
        ∃ w, s.workers[i]? = some w ∧ isRunning w = true
          ∧ w.clock ≤ exit_time) := by
  subst hs
  refine ⟨?_, step_queue_changed⟩
  exact (inv_run readOk sched _
    (inv_init readTime exit_time startClocks paths queue_depth)).times

/-- C5 witness: a concrete run in which the next step does dequeue. -/
theorem c5_witness :
    (∀ w ∈ (run (fun (_ : Nat) => true) (fun _ => 1) 10
        (initState [7] 1 (fun _ => 0)) [0]).workers,
      ∀ e ∈ w.events, e.1 ≤ 10)
    ∧ ∃ w, (run (fun (_ : Nat) => true) (fun _ => 1) 10
        (initState [7] 1 (fun _ => 0)) [0]).workers[0]? = some w
        ∧ isRunning w = true ∧ w.clock ≤ 10 :=
  ⟨(c5_deadline_checked_before_dequeue (fun _ => true) (fun _ => 1) 10 [7] 1
      (fun _ => 0) [0] 0 _ rfl).1,
   (c5_deadline_checked_before_dequeue (fun _ => true) (fun _ => 1) 10 [7] 1
      (fun _ => 0) [0] 0 _ rfl).2 (by decide)⟩

/-- C10: random.shuffle at line 127 permutes the callers list in place:
after every call to benchmark the sequence holds exactly the same multiset of
paths as before (no path added, removed or duplicated), and a further call
reusing the already reordered list still holds a permutation of the original
paths. -/
theorem c10_shuffle_in_place_perm (r r2 : Nat → Nat) (all_files : List P) :
    (shuffleModel r all_files).Perm all_files
    ∧ (shuffleModel r2 (shuffleModel r all_files)).Perm all_files :=
  ⟨shuffleModel_perm r all_files,
   (shuffleModel_perm r2 _).trans (shuffleModel_perm r all_files)⟩

/-- C3 counterexample: with a single path whose read raises and one worker,
the worker dies without publishing a count and the collection loop of
benchmark (lines 150-151) performs a get with no result ever coming: the call
blocks forever (modelled as hang).  The error is not surfaced to the pool
(result values are bare integers, line 118, and exit codes are never
inspected), so the runner does not fail the run reporting the failure upward
as the claim states: it simply never returns. -/
theorem c3_counterexample :
    collect 1 7 (benchmarkRun (fun _ => false) (fun _ => 1) [0] 1
      (fun _ => 0) (fun _ => 0) 0 [0]) = RunnerOutcome.hang := by decide

/-- C3 amended: if any read raises, that worker stops immediately without
retrying or skipping (it takes no further steps and its count is frozen), and
the runner never returns a BenchmarkResult at all - neither a partial one nor
a failure report: it blocks forever waiting for the missing per-worker
result. -/
theorem c3_failed_worker_hangs (readOk : P → Bool) (readTime : P → Nat)
    (all_files : List P) (queue_depth : Nat) (r startClocks : Nat → Nat)
    (now used_t : Nat) (sched : List Nat) (i : Nat) (w : Worker P)
    (s : RunState P)
    (hs : s = benchmarkRun readOk readTime all_files queue_depth r startClocks now sched)
    (hg : s.workers[i]? = some w)
    (hf : isFailed w = true) :
    collect queue_depth used_t s = RunnerOutcome.hang
    ∧ step readOk readTime (benchmark_end_t now) s i = s := by
  subst hs
  simp only [benchmarkRun] at hg ⊢
  have hinv := inv_run readOk sched _
    (inv_init readTime (benchmark_end_t now) startClocks
      (shuffleModel r all_files) queue_depth)
  obtain ⟨hi, hwi⟩ := List.getElem?_eq_some_iff.mp hg
  have hmem : w ∈ (run readOk readTime (benchmark_end_t now)
      (initState (shuffleModel r all_files) queue_depth startClocks)
      sched).workers := by
    rw [← hwi]; exact List.getElem_mem hi
  exact ⟨collect_hang_of_failed hinv.lenW hmem hf,
    step_of_not_running hg (isRunning_false_of_failed hf)⟩

/-- C3 witness: the concrete failing run of the counterexample, through the
amended theorem. -/
theorem c3_witness :
    collect 1 7 (benchmarkRun (fun (_ : Nat) => false) (fun _ => 1) [0] 1
        (fun _ => 0) (fun _ => 0) 0 [0]) = RunnerOutcome.hang
    ∧ step (fun (_ : Nat) => false) (fun _ => 1) (benchmark_end_t 0)
        (benchmarkRun (fun _ => false) (fun _ => 1) [0] 1
          (fun _ => 0) (fun _ => 0) 0 [0]) 0
      = benchmarkRun (fun (_ : Nat) => false) (fun _ => 1) [0] 1
          (fun _ => 0) (fun _ => 0) 0 [0] :=
  c3_failed_worker_hangs (fun _ => false) (fun _ => 1) [0] 1
    (fun _ => 0) (fun _ => 0) 0 7 [0] 0
    ⟨WStatus.failed 0, 0, 0, 0, []⟩ _ rfl (by decide) (by decide)

/-- C6: the runner enqueues exactly one stop sentinel per started worker
(the number of stop tokens in the queue it produces equals the number of
workers started), and from every reachable state of the run every worker can
be driven to termination: some continuation of the schedule ends with all
workers done, regardless of the deadline (the proof never uses the value of
the deadline, so termination does not depend on the duration elapsing). -/
theorem c6_one_sentinel_per_worker_termination (readOk : P → Bool)
    (readTime : P → Nat) (all_files : List P) (queue_depth : Nat)
    (r startClocks : Nat → Nat) (now : Nat) :
    (initQueue (shuffleModel r all_files) queue_depth).countP
        (fun t => t.isNone) = queue_depth
    ∧ ∀ sched, ∃ sched2,
        allDone (run readOk readTime (benchmark_end_t now)
          (benchmarkRun readOk readTime all_files queue_depth r startClocks
            now sched) sched2) = true := by
  refine ⟨countP_isNone_initQueue _ _, ?_⟩
  intro sched
  have hinv := inv_run readOk sched _
    (inv_init readTime (benchmark_end_t now) startClocks
      (shuffleModel r all_files) queue_depth)
  exact exists_completing_sched
    (runMeasure (benchmarkRun readOk readTime all_files queue_depth r
      startClocks now sched)) _ hinv (Nat.le_refl _)

/-- C7 counterexample: two complete runs that differ only in the queue depth
(1 versus 2) produce identical return values of benchmark, while the triple
claimed by the spec (total, elapsed, queue depth) would distinguish them:
the code returns the pair (completed count, used time) of line 154 and no
queue-depth component. -/
theorem c7_counterexample :
    collect 1 5 (benchmarkRun (fun (_ : Nat) => true) (fun _ => 1) [] 1
        (fun _ => 0) (fun _ => 0) 0 [0])
      = collect 2 5 (benchmarkRun (fun (_ : Nat) => true) (fun _ => 1) [] 2
        (fun _ => 0) (fun _ => 0) 0 [0, 1])
    ∧ collect_spec 1 5 (benchmarkRun (fun (_ : Nat) => true) (fun _ => 1) [] 1
        (fun _ => 0) (fun _ => 0) 0 [0])
      ≠ collect_spec 2 5 (benchmarkRun (fun (_ : Nat) => true) (fun _ => 1) [] 2
        (fun _ => 0) (fun _ => 0) 0 [0, 1]) := by decide

/-- C7 amended: each completed invocation of the core benchmark returns the
pair (total completed reads, elapsed wall time) of line 154 to the result
consumer; the queue depth is an input parameter and is not part of the
returned value. -/
theorem c7_returns_pair (readOk : P → Bool) (readTime : P → Nat)
    (all_files : List P) (queue_depth : Nat) (r startClocks : Nat → Nat)
    (now used_t : Nat) (sched : List Nat) (s : RunState P)
    (hs : s = benchmarkRun readOk readTime all_files queue_depth r startClocks now sched)
    (hdone : allDone s = true) (hnf : noFailed s = true) :
    collect queue_depth used_t s
      = RunnerOutcome.result (totalCompleted s) used_t := by
  subst hs
  simp only [benchmarkRun] at hdone hnf ⊢
  have hinv := inv_run readOk sched _
    (inv_init readTime (benchmark_end_t now) startClocks
      (shuffleModel r all_files) queue_depth)
  have hfin : ∀ w ∈ (run readOk readTime (benchmark_end_t now)
      (initState (shuffleModel r all_files) queue_depth startClocks)
      sched).workers, finishedOk w = true := by
    simp only [allDone, noFailed, List.all_eq_true, Bool.not_eq_true'] at hdone hnf
    exact fun w hw => finishedOk_of_statuses (hdone w hw) (hnf w hw)
  exact collect_result_of_all hinv.lenW hfin

/-- C7 witness: a concrete complete run returning the pair. -/
theorem c7_witness :
    collect 1 5 (benchmarkRun (fun (_ : Nat) => true) (fun _ => 1) [4] 1
        (fun _ => 0) (fun _ => 0) 0 [0, 0])
      = RunnerOutcome.result (totalCompleted (benchmarkRun (fun (_ : Nat) => true)
          (fun _ => 1) [4] 1 (fun _ => 0) (fun _ => 0) 0 [0, 0])) 5 :=
  c7_returns_pair (fun _ => true) (fun _ => 1) [4] 1 (fun _ => 0) (fun _ => 0)
    0 5 [0, 0] _ rfl (by decide) (by decide)

/-- C8: for a fixed path set, a deadline generous enough that no worker can
exhaust it, and all reads succeeding, every run in which all workers have
stopped yields a total completed-read count equal to the number of paths
supplied; the count does not depend on the shuffle draws, since the
conclusion holds for every shuffle function. -/
theorem c8_generous_duration_reads_all (readOk : P → Bool) (readTime : P → Nat)
    (all_files : List P) (queue_depth : Nat) (r startClocks : Nat → Nat)
    (now : Nat) (sched : List Nat) (s : RunState P)
    (hs : s = benchmarkRun readOk readTime all_files queue_depth r startClocks now sched)
    (hall : ∀ p, readOk p = true) (hdepth : 1 ≤ queue_depth)
    (hgen : ∀ j, startClocks j + (all_files.map readTime).sum ≤ benchmark_end_t now)
    (hdone : allDone s = true) :
    totalCompleted s = all_files.length := by
  subst hs
  simp only [benchmarkRun] at hdone ⊢
  have hinv := inv_run readOk sched _
    (inv_init readTime (benchmark_end_t now) startClocks
      (shuffleModel r all_files) queue_depth)
  have hnf := @noFailed_run P readOk readTime (benchmark_end_t now) hall sched _
    (noFailed_init (shuffleModel r all_files) queue_depth startClocks)
  have hsum : ((shuffleModel r all_files).map readTime).sum
      = (all_files.map readTime).sum :=
    ((shuffleModel_perm r all_files).map readTime).sum_eq
  have hgen2 : ∀ j, startClocks j + ((shuffleModel r all_files).map readTime).sum
      ≤ benchmark_end_t now := by
    intro j
    rw [hsum]
    exact hgen j
  have hnd := @noDeadline_run P readOk readTime (benchmark_end_t now) startClocks
    (shuffleModel r all_files) queue_depth hgen2 sched _
    (inv_init readTime (benchmark_end_t now) startClocks
      (shuffleModel r all_files) queue_depth)
    (noDeadline_init (shuffleModel r all_files) queue_depth startClocks)
  have hall2 := all_doneStop_of_statuses hdone hnf hnd
  have htot := total_of_complete hinv hdepth hall2 hnf
  rw [htot, (shuffleModel_perm r all_files).length_eq]

/-- C8 witness: a complete run over two paths with one worker and the
hard-coded 30-unit deadline. -/
theorem c8_witness :
    totalCompleted (benchmarkRun (fun (_ : Nat) => true) (fun _ => 1) [10, 20] 1
      (fun _ => 0) (fun _ => 0) 0 [0, 0, 0]) = 2 :=
  c8_generous_duration_reads_all (fun _ => true) (fun _ => 1) [10, 20] 1
    (fun _ => 0) (fun _ => 0) 0 [0, 0, 0] _ rfl (fun _ => rfl) (by decide)
    (fun _ => by show 0 + (List.map (fun _ => 1) [10, 20]).sum ≤ benchmark_end_t 0; decide)
    (by decide)

/-- C9: with one worker and a deadline equal to the worker start clock plus a
duration smaller than the time of any single read, the total completed-read
count is 0 or 1, never more: the worker re-samples the clock before every
dequeue and the first read already pushes the clock past the deadline. -/
theorem c9_near_zero_duration_at_most_one (readOk : P → Bool)
    (readTime : P → Nat) (paths : List P) (startClocks : Nat → Nat)
    (d : Nat) (sched : List Nat) (s : RunState P)
    (hs : s = run readOk readTime (startClocks 0 + d)
      (initState paths 1 startClocks) sched)
    (hd : ∀ p, d < readTime p) :
    totalCompleted s = 0 ∨ totalCompleted s = 1 := by
  subst hs
  have hinv := inv_run readOk sched _
    (inv_init readTime (startClocks 0 + d) startClocks paths 1)
  obtain ⟨w, hw⟩ := List.length_eq_one.mp hinv.lenW
  have hmem : w ∈ (run readOk readTime (startClocks 0 + d)
      (initState paths 1 startClocks) sched).workers := by
    rw [hw]; exact List.mem_singleton_self w
  have htot : totalCompleted (run readOk readTime (startClocks 0 + d)
      (initState paths 1 startClocks) sched) = w.completed := by
    simp [totalCompleted, hw]
  have hcomp := hinv.comp w hmem
  have hle : w.events.length ≤ 1 := by
    rcases hev : w.events with _ | ⟨e1, tail⟩
    · simp
    · rcases htail : tail with _ | ⟨e2, rest⟩
      · simp
      · exfalso
        have htimed := hinv.timed w hmem
        rw [hev, htail] at htimed
        simp only [timedFromB, Bool.and_eq_true, beq_iff_eq] at htimed
        obtain ⟨h1, h2, _⟩ := htimed
        have htimes := hinv.times w hmem e2 (by rw [hev, htail]; simp)
        obtain ⟨i0, hi0, hstart⟩ := hinv.starts w hmem
        have hi00 : i0 = 0 := by omega
        rw [hi00] at hstart
        have := hd e1.2
        omega
  rw [htot, hcomp]
  omega

/-- C9 witness: one worker, duration 0, each read takes 1 unit: the run ends
with exactly one completed read. -/
theorem c9_witness :
    totalCompleted (run (fun (_ : Nat) => true) (fun _ => 1) (0 + 0)
        (initState [5, 6] 1 (fun _ => 0)) [0, 0, 0]) = 0
    ∨ totalCompleted (run (fun (_ : Nat) => true) (fun _ => 1) (0 + 0)
        (initState [5, 6] 1 (fun _ => 0)) [0, 0, 0]) = 1 :=
  c9_near_zero_duration_at_most_one (fun _ => true) (fun _ => 1) [5, 6]
    (fun _ => 0) 0 [0, 0, 0] _ rfl (fun _ => by show (0 : Nat) < 1; decide)

end DatasetFsBenchmark
